import Mathlib

/-!
Verification of the ordered result-set change computation core of
`nodejs-firestore`: the `DocumentChange` record class
(`src/dev/src/document-change.ts`) and the diff engine that produces
ordered lists of such records from a previous and a next ordered
sequence of identity-keyed documents.

The `DocumentChange` class, its accessors, its `isEqual` method and the
sequential replay semantics (the documented `splice` loop in the
`oldIndex`/`newIndex` doc comments) are embedded from the source file.
The diff engine itself and the document type are not part of the visible
source and are modelled from the specification, as marked on each
definition.
-/

/-- Modelled from the spec: the document type (`QueryDocumentSnapshot`,
`src/dev/src/document.ts`) is not in the visible source.  An Item is an
opaque unit with a stable identity key and a data payload; both are
represented by naturals. -/
structure Item where
  key : Nat
  payload : Nat
deriving DecidableEq, Repr

/-- Modelled from the spec: the document type's own equality
(`QueryDocumentSnapshot.isEqual`) is not in the visible source; items
are equal when identity key and payload agree. -/
def Item.isEqual (a b : Item) : Bool :=
  decide (a = b)

/-- The three change kinds, from `DocumentChangeType` in
`document-change.ts`. -/
inductive DocumentChangeType where
  | added
  | removed
  | modified
deriving DecidableEq, Repr

/-- The `DocumentChange` class of `document-change.ts`: the four private
fields set by the constructor. -/
structure DocumentChange where
  _type : DocumentChangeType
  _document : Item
  _oldIndex : Int
  _newIndex : Int
deriving DecidableEq, Repr

/-- Accessor `get type()` of `DocumentChange`. -/
def DocumentChange.type (c : DocumentChange) : DocumentChangeType :=
  c._type

/-- Accessor `get doc()` of `DocumentChange`. -/
def DocumentChange.doc (c : DocumentChange) : Item :=
  c._document

/-- Accessor `get oldIndex()` of `DocumentChange`. -/
def DocumentChange.oldIndex (c : DocumentChange) : Int :=
  c._oldIndex

/-- Accessor `get newIndex()` of `DocumentChange`. -/
def DocumentChange.newIndex (c : DocumentChange) : Int :=
  c._newIndex

/-- The static type of the `other` argument of
`DocumentChange.isEqual`, which is the `firestore.DocumentChange`
interface: a value of that type is either an actual instance of the
`DocumentChange` class or a foreign object that merely exposes the same
fields (and hence fails the `instanceof DocumentChange` test). -/
inductive FsDocumentChange where
  | inst (c : DocumentChange)
  | foreign (t : DocumentChangeType) (d : Item) (oi ni : Int)
deriving DecidableEq, Repr

/-- The `isEqual` method of `DocumentChange` (`document-change.ts`
lines 184-196): reference identity short-circuits to true, otherwise
`other` must be an `instanceof DocumentChange` and the four fields must
agree, the document comparison being delegated to the document type's
own `isEqual`. -/
def DocumentChange.isEqual (c : DocumentChange) (other : FsDocumentChange) : Bool :=
  match other with
  | .inst o =>
    if c = o then
      true
    else
      decide (c._type = o._type) &&
      decide (c._oldIndex = o._oldIndex) &&
      decide (c._newIndex = o._newIndex) &&
      c._document.isEqual o._document
  | .foreign _ _ _ _ => false

/-- JavaScript `docsArray.splice(i, 1)`: removes the element at `i`,
a no-op when `i` is at or past the end. -/
def spliceRemove (l : List Item) (i : Nat) : List Item :=
  l.eraseIdx i

/-- JavaScript `docsArray.splice(i, 0, x)`: inserts `x` at position
`i`, clamped to the end of the array. -/
def spliceInsert (l : List Item) (i : Nat) (x : Item) : List Item :=
  l.insertIdx (min i l.length) x

/-- One step of the sequential replay loop documented on
`oldIndex`/`newIndex` (`document-change.ts` lines 124-137): first
remove at `oldIndex` when it is not `-1`, then insert the record's
document at `newIndex` when it is not `-1`. -/
def applyRecord (l : List Item) (c : DocumentChange) : List Item :=
  let l1 := if c._oldIndex ≠ -1 then spliceRemove l c._oldIndex.toNat else l
  if c._newIndex ≠ -1 then spliceInsert l1 c._newIndex.toNat c._document else l1

/-- Replaying a list of change records in output order against a
mutable copy of the previous sequence, per the documented loop. -/
def replay (l : List Item) (recs : List DocumentChange) : List Item :=
  recs.foldl applyRecord l

/-- First occurrence of identity key `k` in a sequence, with its
position. -/
def findKey : List Item → Nat → Option (Nat × Item)
  | [], _ => none
  | a :: rest, k =>
    if a.key = k then some (0, a)
    else
      match findKey rest k with
      | none => none
      | some (i, x) => some (i + 1, x)

/-- Whether a sequence contains an item with identity key `k`. -/
def hasKey (l : List Item) (k : Nat) : Bool :=
  (findKey l k).isSome

/-- Modelled from the spec: the diff engine is not in the visible
source (§2 notes it "is not materialized in the visible source").
Removal phase (§4.2 step 4): walk `previous` in order (ascending old
position); every item whose key is absent from `next` yields one
`removed` record whose `oldIndex` accounts for all previously emitted
removals (the index discipline §4.2 step 5 sanctions), i.e. equals the
number of kept items so far; `k` counts those kept items. -/
def removePhase (next : List Item) : List Item → Nat → List DocumentChange
  | [], _ => []
  | a :: rest, k =>
    if hasKey next a.key then
      removePhase next rest (k + 1)
    else
      DocumentChange.mk .removed a (Int.ofNat k) (-1) :: removePhase next rest k

/-- Modelled from the spec: the diff engine is not in the visible
source.  One step of the placement phase (§4.2 steps 3 and 5) for the
item `b` at new position `j` against the evolving mutable copy `cur`:
an item matched by key in `previous` is skipped when payload and
absolute position are both unchanged (§4.2 "Formally") and otherwise
yields one `modified` record (remove at its current index, insert at
`j`); an unmatched item yields one `added` record (insert at `j`). -/
def placeStep (previous : List Item) (b : Item) (j : Nat) (cur : List Item) :
    List DocumentChange × List Item :=
  match findKey previous b.key with
  | some (p, a) =>
    if a.payload = b.payload ∧ p = j then
      ([], cur)
    else
      match findKey cur b.key with
      | some (i, _) =>
        ([DocumentChange.mk .modified b (Int.ofNat i) (Int.ofNat j)],
          spliceInsert (spliceRemove cur i) j b)
      | none => ([], cur)
  | none =>
    ([DocumentChange.mk .added b (-1) (Int.ofNat j)], spliceInsert cur j b)

/-- Modelled from the spec: the diff engine is not in the visible
source.  Placement phase (§4.2 steps 3 and 5): fold `placeStep` over
`next` in order of ascending new position, threading the evolving
mutable copy. -/
def placePhase (previous : List Item) : List Item → Nat → List Item → List DocumentChange × List Item
  | [], _, cur => ([], cur)
  | b :: rest, j, cur =>
    let s := placeStep previous b j cur
    let r := placePhase previous rest (j + 1) s.2
    (s.1 ++ r.1, r.2)

/-- Modelled from the spec: the diff engine is not in the visible
source.  Full change computation (§4.2): all `removed` records first,
ordered by ascending old position, then all `modified` and `added`
records ordered by ascending new position, the placement phase starting
from the previous sequence with the removed items already taken out. -/
def computeChanges (previous next : List Item) : List DocumentChange :=
  removePhase next previous 0 ++
    (placePhase previous next 0 (previous.filter (fun a => hasKey next a.key))).1

/-- Modelled from the spec: the error kind raised on a duplicate
identity key (§7), naming the duplicated key. -/
structure InvariantViolation where
  key : Nat
deriving DecidableEq, Repr

/-- First identity key that occurs more than once in a list of keys. -/
def firstDup : List Nat → Option Nat
  | [] => none
  | k :: rest => if k ∈ rest then some k else firstDup rest

/-- Modelled from the spec: the diff engine is not in the visible
source.  Engine entry point (§4.2, §7): fail fast with an
`InvariantViolation` naming the duplicated key when an input sequence
repeats an identity key, otherwise return the ordered change records. -/
def diffEngine (previous next : List Item) : Except InvariantViolation (List DocumentChange) :=
  match firstDup (previous.map Item.key) with
  | some k => .error ⟨k⟩
  | none =>
    match firstDup (next.map Item.key) with
    | some k => .error ⟨k⟩
    | none => .ok (computeChanges previous next)

/-- Records of the output that concern the item with identity key
`k`. -/
def recsForKey (recs : List DocumentChange) (k : Nat) : List DocumentChange :=
  recs.filter (fun r => decide (r._document.key = k))

/-! ### Helper lemmas: `findKey`, `hasKey`, splicing -/

theorem findKey_some_key {l : List Item} {k i : Nat} {x : Item}
    (h : findKey l k = some (i, x)) : x.key = k := by
  induction l generalizing i with
  | nil => simp [findKey] at h
  | cons a rest ih =>
    rw [findKey] at h
    by_cases hak : a.key = k
    · rw [if_pos hak] at h
      cases h
      exact hak
    · rw [if_neg hak] at h
      cases hfk : findKey rest k with
      | none => rw [hfk] at h; cases h
      | some p =>
        rw [hfk] at h
        cases h
        exact ih hfk

theorem findKey_some_decomp {l : List Item} {k i : Nat} {x : Item}
    (h : findKey l k = some (i, x)) :
    ∃ L t, l = L ++ x :: t ∧ L.length = i ∧ ∀ c ∈ L, c.key ≠ k := by
  induction l generalizing i with
  | nil => simp [findKey] at h
  | cons a rest ih =>
    rw [findKey] at h
    by_cases hak : a.key = k
    · rw [if_pos hak] at h
      cases h
      exact ⟨[], rest, by simp⟩
    · rw [if_neg hak] at h
      cases hfk : findKey rest k with
      | none => rw [hfk] at h; cases h
      | some p =>
        rw [hfk] at h
        cases h
        obtain ⟨L, t, h1, h2, h3⟩ := ih hfk
        refine ⟨a :: L, t, by simp [h1], by simp [h2], ?_⟩
        intro c hc
        rcases List.mem_cons.mp hc with rfl | hc
        · exact hak
        · exact h3 c hc

theorem findKey_some_mem {l : List Item} {k i : Nat} {x : Item}
    (h : findKey l k = some (i, x)) : x ∈ l := by
  obtain ⟨L, t, h1, -, -⟩ := findKey_some_decomp h
  subst h1
  simp

theorem findKey_none_iff {l : List Item} {k : Nat} :
    findKey l k = none ↔ ∀ c ∈ l, c.key ≠ k := by
  induction l with
  | nil => simp [findKey]
  | cons a rest ih =>
    rw [findKey]
    by_cases hak : a.key = k
    · simp [if_pos hak, hak]
    · rw [if_neg hak]
      cases hfk : findKey rest k with
      | none =>
        simp only [true_iff]
        intro c hc
        rcases List.mem_cons.mp hc with rfl | hc2
        · exact hak
        · exact (ih.mp hfk) c hc2
      | some p =>
        constructor
        · intro h
          cases h
        · intro h
          have hh : findKey rest k = none :=
            ih.mpr (fun c hc => h c (List.mem_cons_of_mem a hc))
          rw [hh] at hfk
          cases hfk

theorem hasKey_iff {l : List Item} {k : Nat} :
    hasKey l k = true ↔ ∃ c ∈ l, c.key = k := by
  constructor
  · intro h
    rw [hasKey] at h
    cases hfk : findKey l k with
    | none => rw [hfk] at h; cases h
    | some p => exact ⟨p.2, findKey_some_mem hfk, findKey_some_key hfk⟩
  · rintro ⟨c, hc, rfl⟩
    rw [hasKey]
    cases hfk : findKey l c.key with
    | none => exact (findKey_none_iff.mp hfk c hc rfl).elim
    | some p => rfl

theorem findKey_append_of_none {L t : List Item} {k i : Nat} {x : Item}
    (hL : ∀ c ∈ L, c.key ≠ k) (h : findKey t k = some (i, x)) :
    findKey (L ++ t) k = some (i + L.length, x) := by
  induction L with
  | nil => simpa using h
  | cons a L ih =>
    have hak : a.key ≠ k := hL a (by simp)
    rw [List.cons_append, findKey, if_neg hak,
      ih (fun c hc => hL c (List.mem_cons_of_mem a hc))]
    simp
    omega

theorem key_unique {l : List Item} (hnd : (l.map Item.key).Nodup) {x y : Item}
    (hx : x ∈ l) (hy : y ∈ l) (hkey : x.key = y.key) : x = y := by
  induction l with
  | nil => cases hx
  | cons a rest ih =>
    rw [List.map_cons, List.nodup_cons] at hnd
    rcases List.mem_cons.mp hx with hx1 | hx1 <;>
      rcases List.mem_cons.mp hy with hy1 | hy1
    · rw [hx1, hy1]
    · subst hx1
      have hmem : x.key ∈ List.map Item.key rest := by
        rw [hkey]
        exact List.mem_map_of_mem Item.key hy1
      exact absurd hmem hnd.1
    · subst hy1
      have hmem : y.key ∈ List.map Item.key rest := by
        rw [← hkey]
        exact List.mem_map_of_mem Item.key hx1
      exact absurd hmem hnd.1
    · exact ih hnd.2 hx1 hy1

theorem eraseIdx_append_length (L t : List Item) (x : Item) :
    (L ++ x :: t).eraseIdx L.length = L ++ t := by
  induction L with
  | nil => simp
  | cons a L ih => simpa using ih

theorem insertIdx_append_length (L t : List Item) (b : Item) :
    (L ++ t).insertIdx L.length b = L ++ b :: t := by
  induction L with
  | nil => simp
  | cons a L ih => simpa [List.insertIdx_succ_cons] using ih

theorem spliceInsert_append (L t : List Item) (b : Item) :
    spliceInsert (L ++ t) L.length b = L ++ b :: t := by
  rw [spliceInsert, Nat.min_eq_left (by simp), insertIdx_append_length]

theorem spliceRemove_append (L t : List Item) (x : Item) :
    spliceRemove (L ++ x :: t) L.length = L ++ t :=
  eraseIdx_append_length L t x

/-! ### Helper lemmas: replay steps -/

theorem replay_nil (l : List Item) : replay l [] = l :=
  rfl

theorem replay_cons (l : List Item) (c : DocumentChange) (recs : List DocumentChange) :
    replay l (c :: recs) = replay (applyRecord l c) recs :=
  rfl

theorem replay_append (l : List Item) (r1 r2 : List DocumentChange) :
    replay l (r1 ++ r2) = replay (replay l r1) r2 :=
  List.foldl_append applyRecord l r1 r2

theorem ofNat_ne_negOne (k : Nat) : (Int.ofNat k) ≠ (-1 : Int) := by
  rw [Int.ofNat_eq_natCast]
  omega

theorem applyRecord_removed (l : List Item) (a : Item) (k : Nat) :
    applyRecord l (DocumentChange.mk .removed a (Int.ofNat k) (-1)) = spliceRemove l k := by
  simp only [applyRecord]
  rw [if_neg (by simp), if_pos (ofNat_ne_negOne k)]
  rfl

theorem applyRecord_modified (l : List Item) (b : Item) (i j : Nat) :
    applyRecord l (DocumentChange.mk .modified b (Int.ofNat i) (Int.ofNat j)) =
      spliceInsert (spliceRemove l i) j b := by
  simp only [applyRecord]
  rw [if_pos (ofNat_ne_negOne j), if_pos (ofNat_ne_negOne i)]
  rfl

theorem applyRecord_added (l : List Item) (b : Item) (j : Nat) :
    applyRecord l (DocumentChange.mk .added b (-1) (Int.ofNat j)) = spliceInsert l j b := by
  simp only [applyRecord]
  rw [if_pos (ofNat_ne_negOne j), if_neg (by simp)]
  rfl

/-! ### Helper lemmas: the removal phase -/

theorem removePhase_replay (next : List Item) :
    ∀ (suffix L : List Item),
      replay (L ++ suffix) (removePhase next suffix L.length) =
        L ++ suffix.filter (fun a => hasKey next a.key) := by
  intro suffix
  induction suffix with
  | nil => intro L; simp [removePhase, replay]
  | cons a rest ih =>
    intro L
    rw [removePhase, List.filter_cons]
    by_cases h : hasKey next a.key = true
    · rw [if_pos h, if_pos h]
      have hstep := ih (L ++ [a])
      rw [List.append_assoc, List.singleton_append, List.length_append,
        List.length_singleton] at hstep
      rw [hstep, List.append_assoc, List.singleton_append]
    · rw [if_neg h, if_neg h, replay_cons, applyRecord_removed, spliceRemove_append]
      exact ih L

theorem removePhase_records (next : List Item) :
    ∀ (suffix : List Item) (k : Nat), ∀ r ∈ removePhase next suffix k,
      r._type = .removed ∧ r._newIndex = -1 ∧ (∃ m : Nat, r._oldIndex = Int.ofNat m) ∧
        r._document ∈ suffix ∧ hasKey next r._document.key = false := by
  intro suffix
  induction suffix with
  | nil => intro k r hr; simp [removePhase] at hr
  | cons a rest ih =>
    intro k r hr
    rw [removePhase] at hr
    by_cases h : hasKey next a.key = true
    · rw [if_pos h] at hr
      obtain ⟨h1, h2, h3, h4, h5⟩ := ih (k + 1) r hr
      exact ⟨h1, h2, h3, List.mem_cons_of_mem a h4, h5⟩
    · rw [if_neg h] at hr
      rcases List.mem_cons.mp hr with rfl | hr2
      · exact ⟨rfl, rfl, ⟨k, rfl⟩, by simp, Bool.not_eq_true _ ▸ h⟩
      · obtain ⟨h1, h2, h3, h4, h5⟩ := ih k r hr2
        exact ⟨h1, h2, h3, List.mem_cons_of_mem a h4, h5⟩

theorem removePhase_docs (next : List Item) :
    ∀ (suffix : List Item) (k : Nat),
      (removePhase next suffix k).map DocumentChange._document =
        suffix.filter (fun a => !(hasKey next a.key)) := by
  intro suffix
  induction suffix with
  | nil => intro k; simp [removePhase]
  | cons a rest ih =>
    intro k
    rw [removePhase, List.filter_cons]
    by_cases h : hasKey next a.key = true
    · rw [if_pos h, if_neg (by simp [h]), ih (k + 1)]
    · rw [if_neg h, if_pos (by simp [Bool.not_eq_true _ ▸ h]), List.map_cons, ih k]

theorem removePhase_all (next : List Item) :
    ∀ (suffix : List Item) (k : Nat), (∀ a ∈ suffix, hasKey next a.key = false) →
      removePhase next suffix k =
        suffix.map (fun a => DocumentChange.mk .removed a (Int.ofNat k) (-1)) := by
  intro suffix
  induction suffix with
  | nil => intro k _; simp [removePhase]
  | cons a rest ih =>
    intro k hall
    rw [removePhase, if_neg (by simp [hall a (by simp)]), List.map_cons]
    rw [ih k (fun c hc => hall c (List.mem_cons_of_mem a hc))]

/-! ### Helper lemmas: the placement phase -/

theorem placeStep_skip {previous : List Item} {b : Item} {j : Nat} {cur : List Item}
    {p : Nat} {a : Item} (hfp : findKey previous b.key = some (p, a))
    (hc : a.payload = b.payload ∧ p = j) :
    placeStep previous b j cur = ([], cur) := by
  simp [placeStep, hfp, hc]

theorem placeStep_modified {previous : List Item} {b : Item} {j : Nat} {cur : List Item}
    {p : Nat} {a : Item} {i : Nat} {x : Item}
    (hfp : findKey previous b.key = some (p, a))
    (hc : ¬(a.payload = b.payload ∧ p = j)) (hfc : findKey cur b.key = some (i, x)) :
    placeStep previous b j cur =
      ([DocumentChange.mk .modified b (Int.ofNat i) (Int.ofNat j)],
        spliceInsert (spliceRemove cur i) j b) := by
  simp [placeStep, hfp, hc, hfc]

theorem placeStep_stuck {previous : List Item} {b : Item} {j : Nat} {cur : List Item}
    {p : Nat} {a : Item} (hfp : findKey previous b.key = some (p, a))
    (hc : ¬(a.payload = b.payload ∧ p = j)) (hfc : findKey cur b.key = none) :
    placeStep previous b j cur = ([], cur) := by
  simp [placeStep, hfp, hc, hfc]

theorem placeStep_added {previous : List Item} {b : Item} {j : Nat} {cur : List Item}
    (hfp : findKey previous b.key = none) :
    placeStep previous b j cur =
      ([DocumentChange.mk .added b (-1) (Int.ofNat j)], spliceInsert cur j b) := by
  simp [placeStep, hfp]

theorem placeStep_replay (previous : List Item) (b : Item) (j : Nat) (cur : List Item) :
    replay cur (placeStep previous b j cur).1 = (placeStep previous b j cur).2 := by
  cases hfp : findKey previous b.key with
  | none => rw [placeStep_added hfp, replay_cons, applyRecord_added, replay_nil]
  | some pa =>
    obtain ⟨p, a⟩ := pa
    by_cases hc : a.payload = b.payload ∧ p = j
    · rw [placeStep_skip hfp hc]
      rfl
    · cases hfc : findKey cur b.key with
      | none =>
        rw [placeStep_stuck hfp hc hfc]
        rfl
      | some q =>
        obtain ⟨i, x⟩ := q
        rw [placeStep_modified hfp hc hfc, replay_cons, applyRecord_modified, replay_nil]

theorem placePhase_cons (previous b rest) (j : Nat) (cur : List Item) :
    placePhase previous (b :: rest) j cur =
      ((placeStep previous b j cur).1 ++
          (placePhase previous rest (j + 1) (placeStep previous b j cur).2).1,
        (placePhase previous rest (j + 1) (placeStep previous b j cur).2).2) :=
  rfl

theorem placePhase_replay (previous : List Item) :
    ∀ (rest : List Item) (j : Nat) (cur : List Item),
      replay cur (placePhase previous rest j cur).1 = (placePhase previous rest j cur).2 := by
  intro rest
  induction rest with
  | nil => intro j cur; rfl
  | cons b rest ih =>
    intro j cur
    rw [placePhase_cons, replay_append, placeStep_replay]
    exact ih (j + 1) (placeStep previous b j cur).2

theorem placePhase_state (previous : List Item)
    (hpnd : (previous.map Item.key).Nodup) :
    ∀ (rest done tail : List Item),
      ((rest.map Item.key).Nodup) →
      (∀ c ∈ rest, c.key ∉ done.map Item.key) →
      List.Sublist tail previous →
      tail.map Item.key =
        (rest.filter (fun b => hasKey previous b.key)).map Item.key →
      (placePhase previous rest done.length (done ++ tail)).2 = done ++ rest := by
  intro rest
  induction rest with
  | nil =>
    intro done tail _ _ _ hR
    simp only [List.filter_nil, List.map_nil, List.map_eq_nil_iff] at hR
    subst hR
    simp [placePhase]
  | cons b rest ih =>
    intro done tail hnd hD hsub hR
    rw [List.map_cons] at hnd
    have hbk : b.key ∉ rest.map Item.key := (List.nodup_cons.mp hnd).1
    have hnd2 := (List.nodup_cons.mp hnd).2
    have hD2 : ∀ c ∈ rest, c.key ∉ (done ++ [b]).map Item.key := by
      intro c hc2 hmem
      rw [List.map_append] at hmem
      rcases List.mem_append.mp hmem with hm | hm
      · exact hD c (List.mem_cons_of_mem b hc2) hm
      · have hckey : c.key = b.key := by simpa using hm
        exact hbk (hckey ▸ List.mem_map_of_mem Item.key hc2)
    cases hfp : findKey previous b.key with
    | none =>
      have hhk : hasKey previous b.key = false := by rw [hasKey, hfp]; rfl
      rw [List.filter_cons, hhk] at hR
      rw [if_neg Bool.false_ne_true] at hR
      simp only [placePhase_cons, placeStep_added hfp]
      rw [spliceInsert_append done tail b]
      have hstep := ih (done ++ [b]) tail hnd2 hD2 hsub hR
      simp only [List.append_assoc, List.singleton_append] at hstep
      have hlen : (done ++ [b]).length = done.length + 1 := by simp
      rw [hlen] at hstep
      exact hstep
    | some pa =>
      obtain ⟨p, a⟩ := pa
      have hhk : hasKey previous b.key = true := by rw [hasKey, hfp]; rfl
      rw [List.filter_cons, hhk, if_pos rfl] at hR
      cases tail with
      | nil => simp at hR
      | cons a1 tail1 =>
        rw [List.map_cons, List.map_cons] at hR
        injection hR with ha1 htl
        have ha1mem : a1 ∈ previous := hsub.subset (List.mem_cons_self a1 tail1)
        have ha : a = a1 :=
          key_unique hpnd (findKey_some_mem hfp) ha1mem
            (by rw [findKey_some_key hfp, ha1])
        have hsub1 : List.Sublist tail1 previous :=
          (List.sublist_cons_self a1 tail1).trans hsub
        have hstep := ih (done ++ [b]) tail1 hnd2 hD2 hsub1 htl
        simp only [List.append_assoc, List.singleton_append] at hstep
        have hlen : (done ++ [b]).length = done.length + 1 := by simp
        rw [hlen] at hstep
        by_cases hc : a.payload = b.payload ∧ p = done.length
        · have hab : a1 = b := by
            have h2 : a1.payload = b.payload := by rw [← ha]; exact hc.1
            obtain ⟨k1, p1⟩ := a1
            obtain ⟨k2, p2⟩ := b
            simp only at ha1 h2
            rw [ha1, h2]
          simp only [placePhase_cons, placeStep_skip hfp hc]
          rw [hab]
          exact hstep
        · have hDb : ∀ c ∈ done, c.key ≠ b.key := by
            intro c hc2 heq
            exact hD b (List.mem_cons_self b rest) (heq ▸ List.mem_map_of_mem Item.key hc2)
          have hinner : findKey (a1 :: tail1) b.key = some (0, a1) := by
            rw [findKey, if_pos ha1]
          have hfc : findKey (done ++ a1 :: tail1) b.key = some (done.length, a1) := by
            have := findKey_append_of_none hDb hinner
            rwa [Nat.zero_add] at this
          simp only [placePhase_cons, placeStep_modified hfp hc hfc]
          rw [spliceRemove_append done tail1 a1, spliceInsert_append done tail1 b]
          exact hstep

/-! ### Helper lemmas: duplicate detection and the engine entry point -/

theorem firstDup_eq_none_iff {l : List Nat} : firstDup l = none ↔ l.Nodup := by
  induction l with
  | nil => simp [firstDup]
  | cons k rest ih =>
    rw [firstDup, List.nodup_cons]
    by_cases h : k ∈ rest
    · rw [if_pos h]
      simp [h]
    · rw [if_neg h]
      simp [h, ih]

theorem firstDup_some_count {l : List Nat} {k : Nat} (h : firstDup l = some k) :
    2 ≤ l.count k := by
  induction l with
  | nil => cases h
  | cons c rest ih =>
    rw [firstDup] at h
    by_cases hm : c ∈ rest
    · rw [if_pos hm] at h
      cases h
      have h1 : 0 < rest.count k := List.count_pos_iff.mpr hm
      have h2 : (k :: rest).count k = rest.count k + 1 := by
        rw [List.count_cons]
        simp
      omega
    · rw [if_neg hm] at h
      have h1 := ih h
      have h2 : rest.count k ≤ (c :: rest).count k := by
        rw [List.count_cons]
        omega
      omega

theorem diffEngine_ok_iff {p n : List Item} {recs : List DocumentChange} :
    diffEngine p n = Except.ok recs ↔
      (p.map Item.key).Nodup ∧ (n.map Item.key).Nodup ∧ recs = computeChanges p n := by
  rw [diffEngine]
  cases h1 : firstDup (p.map Item.key) with
  | some k =>
    have : ¬(p.map Item.key).Nodup := by
      intro hnd
      rw [firstDup_eq_none_iff.mpr hnd] at h1
      cases h1
    simp [this]
  | none =>
    cases h2 : firstDup (n.map Item.key) with
    | some k =>
      have : ¬(n.map Item.key).Nodup := by
        intro hnd
        rw [firstDup_eq_none_iff.mpr hnd] at h2
        cases h2
      simp [this]
    | none =>
      have hp := firstDup_eq_none_iff.mp h1
      have hn := firstDup_eq_none_iff.mp h2
      simp [hp, hn]
      constructor
      · intro h
        exact h.symm
      · intro h
        exact h.symm

/-! ### Claim theorems -/

/-- C1, amended.  Replay invariant for the diff engine, under the
additional hypothesis that the items present in both sequences appear
in the same relative order in `previous` and in `next`: replaying the
emitted records in output order against a mutable copy of `previous`
(remove at `oldIndex` when it is not -1, then insert the record's item
at `newIndex` when it is not -1) yields exactly `next`.  Without that
hypothesis the invariant fails, see the counterexample. -/
theorem diff_replay_reconstructs (p n : List Item) (recs : List DocumentChange)
    (hok : diffEngine p n = Except.ok recs)
    (horder : (p.filter (fun a => hasKey n a.key)).map Item.key =
      (n.filter (fun b => hasKey p b.key)).map Item.key) :
    replay p recs = n := by
  obtain ⟨h1, h2, hrecs⟩ := diffEngine_ok_iff.mp hok
  subst hrecs
  rw [computeChanges, replay_append]
  have hrem := removePhase_replay n p []
  simp only [List.nil_append, List.length_nil] at hrem
  rw [hrem, placePhase_replay]
  have hmain := placePhase_state p h1 n [] (p.filter (fun a => hasKey n a.key))
    h2 (by simp) (List.filter_sublist p) horder
  simpa using hmain

/-- Witness for C1 (amended) at the specification's own §8 example:
previous `[A,B,C]`, next `[A,C,D]`. -/
theorem diff_replay_reconstructs_witness :
    replay [⟨0,0⟩, ⟨1,0⟩, ⟨2,0⟩]
        (computeChanges [⟨0,0⟩, ⟨1,0⟩, ⟨2,0⟩] [⟨0,0⟩, ⟨2,0⟩, ⟨3,0⟩]) =
      [⟨0,0⟩, ⟨2,0⟩, ⟨3,0⟩] :=
  diff_replay_reconstructs [⟨0,0⟩, ⟨1,0⟩, ⟨2,0⟩] [⟨0,0⟩, ⟨2,0⟩, ⟨3,0⟩]
    (computeChanges [⟨0,0⟩, ⟨1,0⟩, ⟨2,0⟩] [⟨0,0⟩, ⟨2,0⟩, ⟨3,0⟩]) rfl (by decide)

/-- C1, counterexample to the claim as stated: `previous = [A,B]` and
`next = [C,B,D,A]` are identity-unique, but the item `B` keeps payload
and absolute position 1 in both sequences while the set of items around
it changes, so the engine (per §4.2 "Formally" and §8 "Minimality")
emits no record for `B`, and replaying the emitted records yields
`[C,D,B,A]`, not `next`. -/
theorem diff_replay_counterexample :
    ((([⟨0,0⟩, ⟨1,0⟩] : List Item).map Item.key).Nodup ∧
      (([⟨2,0⟩, ⟨1,0⟩, ⟨3,0⟩, ⟨0,0⟩] : List Item).map Item.key).Nodup) ∧
    diffEngine [⟨0,0⟩, ⟨1,0⟩] [⟨2,0⟩, ⟨1,0⟩, ⟨3,0⟩, ⟨0,0⟩] =
      Except.ok (computeChanges [⟨0,0⟩, ⟨1,0⟩] [⟨2,0⟩, ⟨1,0⟩, ⟨3,0⟩, ⟨0,0⟩]) ∧
    replay [⟨0,0⟩, ⟨1,0⟩] (computeChanges [⟨0,0⟩, ⟨1,0⟩] [⟨2,0⟩, ⟨1,0⟩, ⟨3,0⟩, ⟨0,0⟩]) ≠
      [⟨2,0⟩, ⟨1,0⟩, ⟨3,0⟩, ⟨0,0⟩] :=
  ⟨by decide, rfl, by decide⟩

/-! ### Helper lemmas: shapes of the emitted records -/

theorem hasKey_false_findKey {l : List Item} {k : Nat} (h : hasKey l k = false) :
    findKey l k = none := by
  rw [hasKey] at h
  cases hfk : findKey l k with
  | none => rfl
  | some p => rw [hfk] at h; cases h

theorem placeStep_cases (previous : List Item) (b : Item) (j : Nat) (cur : List Item) :
    ((placeStep previous b j cur).1 = [] ∧ (placeStep previous b j cur).2 = cur) ∨
    (∃ r, (placeStep previous b j cur).1 = [r] ∧ r._document = b ∧
      r._newIndex = Int.ofNat j ∧
      ((r._type = .modified ∧ (∃ m : Nat, r._oldIndex = Int.ofNat m) ∧
          hasKey previous b.key = true) ∨
        (r._type = .added ∧ r._oldIndex = -1 ∧ hasKey previous b.key = false))) := by
  cases hfp : findKey previous b.key with
  | none =>
    right
    exact ⟨_, by rw [placeStep_added hfp], rfl, rfl,
      Or.inr ⟨rfl, rfl, by rw [hasKey, hfp]; rfl⟩⟩
  | some pa =>
    obtain ⟨p, a⟩ := pa
    by_cases hc : a.payload = b.payload ∧ p = j
    · left
      rw [placeStep_skip hfp hc]
      exact ⟨rfl, rfl⟩
    · cases hfc : findKey cur b.key with
      | none =>
        left
        rw [placeStep_stuck hfp hc hfc]
        exact ⟨rfl, rfl⟩
      | some q =>
        obtain ⟨i, x⟩ := q
        right
        exact ⟨_, by rw [placeStep_modified hfp hc hfc], rfl, rfl,
          Or.inl ⟨rfl, ⟨i, rfl⟩, by rw [hasKey, hfp]; rfl⟩⟩

theorem placePhase_records (previous : List Item) :
    ∀ (rest : List Item) (j : Nat) (cur : List Item),
      ∀ r ∈ (placePhase previous rest j cur).1,
        ∃ q : Nat, j ≤ q ∧ r._newIndex = Int.ofNat q ∧ r._document ∈ rest ∧
          ((r._type = .modified ∧ (∃ m : Nat, r._oldIndex = Int.ofNat m) ∧
              hasKey previous r._document.key = true) ∨
            (r._type = .added ∧ r._oldIndex = -1 ∧
              hasKey previous r._document.key = false)) := by
  intro rest
  induction rest with
  | nil => intro j cur r hr; simp [placePhase] at hr
  | cons b rest ih =>
    intro j cur r hr
    rw [placePhase_cons] at hr
    rcases List.mem_append.mp hr with hstep | hrec
    · rcases placeStep_cases previous b j cur with ⟨he, -⟩ | ⟨r2, he, hdoc, hni, hshape⟩
      · rw [he] at hstep; cases hstep
      · rw [he] at hstep
        have : r = r2 := by simpa using hstep
        subst this
        exact ⟨j, Nat.le_refl j, hni, by rw [hdoc]; simp, by rw [hdoc]; exact hshape⟩
    · obtain ⟨q, hq, hni, hdoc, hshape⟩ := ih (j + 1) (placeStep previous b j cur).2 r hrec
      exact ⟨q, by omega, hni, List.mem_cons_of_mem b hdoc, hshape⟩

theorem placePhase_pairwise (previous : List Item) :
    ∀ (rest : List Item) (j : Nat) (cur : List Item),
      ((placePhase previous rest j cur).1).Pairwise
        (fun x y => x._newIndex < y._newIndex) := by
  intro rest
  induction rest with
  | nil => intro j cur; simp [placePhase]
  | cons b rest ih =>
    intro j cur
    rw [placePhase_cons]
    rw [List.pairwise_append]
    refine ⟨?_, ih (j + 1) (placeStep previous b j cur).2, ?_⟩
    · rcases placeStep_cases previous b j cur with ⟨he, -⟩ | ⟨r2, he, -, -, -⟩ <;>
        rw [he] <;> simp
    · intro x hx y hy
      rcases placeStep_cases previous b j cur with ⟨he, -⟩ | ⟨r2, he, -, hni, -⟩
      · rw [he] at hx; cases hx
      · rw [he] at hx
        have hxr : x = r2 := by simpa using hx
        obtain ⟨q, hq, hniy, -, -⟩ :=
          placePhase_records previous rest (j + 1) (placeStep previous b j cur).2 y hy
        rw [hxr, hni, hniy]
        rw [Int.ofNat_eq_natCast, Int.ofNat_eq_natCast]
        exact_mod_cast Nat.lt_of_lt_of_le (Nat.lt_succ_self j) hq

theorem placePhase_all_added (previous : List Item) :
    ∀ (rest : List Item) (j : Nat) (cur : List Item),
      (∀ b ∈ rest, hasKey previous b.key = false) →
      (placePhase previous rest j cur).1.length = rest.length := by
  intro rest
  induction rest with
  | nil => intro j cur _; rfl
  | cons b rest ih =>
    intro j cur hall
    have hfp : findKey previous b.key = none :=
      hasKey_false_findKey (hall b (List.mem_cons_self b rest))
    rw [placePhase_cons]
    simp only [placeStep_added hfp, List.length_append, List.length_cons]
    rw [ih (j + 1) _ (fun c hc => hall c (List.mem_cons_of_mem b hc))]
    simp [Nat.add_comm]

/-! ### Helper lemmas: keys preserved by the evolving copy -/

theorem hasKey_spliceInsert {l : List Item} {k : Nat} (x : Item) (j : Nat)
    (h : hasKey l k = true) : hasKey (spliceInsert l j x) k = true := by
  obtain ⟨c, hc, hck⟩ := hasKey_iff.mp h
  refine hasKey_iff.mpr ⟨c, ?_, hck⟩
  rw [spliceInsert]
  exact (List.mem_insertIdx (Nat.min_le_right j l.length)).mpr (Or.inr hc)

theorem hasKey_spliceRemove {l : List Item} {kk k : Nat} {i : Nat} {x : Item}
    (hfk : findKey l kk = some (i, x)) (hne : k ≠ kk)
    (h : hasKey l k = true) : hasKey (spliceRemove l i) k = true := by
  obtain ⟨L, t, hl, hlen, -⟩ := findKey_some_decomp hfk
  subst hl
  rw [← hlen, spliceRemove_append]
  obtain ⟨c, hc, hck⟩ := hasKey_iff.mp h
  refine hasKey_iff.mpr ⟨c, ?_, hck⟩
  rcases List.mem_append.mp hc with hm | hm
  · exact List.mem_append.mpr (Or.inl hm)
  · rcases List.mem_cons.mp hm with rfl | hm2
    · have hkk : kk = k := by
        rw [← findKey_some_key hfk]
        exact hck
      exact absurd hkk.symm hne
    · exact List.mem_append.mpr (Or.inr hm2)

theorem placeStep_preserves (previous : List Item) (b : Item) (j : Nat) (cur : List Item)
    {k : Nat} (hne : k ≠ b.key) (h : hasKey cur k = true) :
    hasKey (placeStep previous b j cur).2 k = true := by
  cases hfp : findKey previous b.key with
  | none =>
    rw [placeStep_added hfp]
    exact hasKey_spliceInsert b j h
  | some pa =>
    obtain ⟨p, a⟩ := pa
    by_cases hc : a.payload = b.payload ∧ p = j
    · rw [placeStep_skip hfp hc]
      exact h
    · cases hfc : findKey cur b.key with
      | none =>
        rw [placeStep_stuck hfp hc hfc]
        exact h
      | some q =>
        obtain ⟨i, x⟩ := q
        rw [placeStep_modified hfp hc hfc]
        exact hasKey_spliceInsert b j (hasKey_spliceRemove hfc hne h)

theorem hasKey_filter_matched {p n : List Item} {k : Nat}
    (hp : hasKey p k = true) (hn : hasKey n k = true) :
    hasKey (p.filter (fun a => hasKey n a.key)) k = true := by
  obtain ⟨c, hc, hck⟩ := hasKey_iff.mp hp
  refine hasKey_iff.mpr ⟨c, ?_, hck⟩
  exact List.mem_filter.mpr ⟨hc, by rw [hck]; exact hn⟩

/-! ### Helper lemmas: the records concerning one identity key -/

theorem recsForKey_append (l1 l2 : List DocumentChange) (k : Nat) :
    recsForKey (l1 ++ l2) k = recsForKey l1 k ++ recsForKey l2 k :=
  List.filter_append l1 l2

theorem recsForKey_removePhase (next : List Item) (suffix : List Item) (kc : Nat)
    {k : Nat} (hn : hasKey next k = true) :
    recsForKey (removePhase next suffix kc) k = [] := by
  refine List.filter_eq_nil_iff.mpr ?_
  intro r hr hk
  obtain ⟨-, -, -, -, h5⟩ := removePhase_records next suffix kc r hr
  rw [decide_eq_true_iff] at hk
  rw [hk] at h5
  rw [h5] at hn
  cases hn

theorem recsForKey_placePhase_absent (previous : List Item)
    (rest : List Item) (j : Nat) (cur : List Item) {k : Nat}
    (habs : findKey rest k = none) :
    recsForKey (placePhase previous rest j cur).1 k = [] := by
  refine List.filter_eq_nil_iff.mpr ?_
  intro r hr hk
  obtain ⟨-, -, -, hdoc, -⟩ := placePhase_records previous rest j cur r hr
  rw [decide_eq_true_iff] at hk
  exact findKey_none_iff.mp habs r._document hdoc hk

theorem recsForKey_placeStep_ne (previous : List Item) (b : Item) (j : Nat)
    (cur : List Item) {k : Nat} (hne : ¬b.key = k) :
    recsForKey (placeStep previous b j cur).1 k = [] := by
  rcases placeStep_cases previous b j cur with ⟨he, -⟩ | ⟨r, he, hdoc, -, -⟩
  · rw [he]; rfl
  · rw [he]
    simp [recsForKey, hdoc, hne]

theorem recsForKey_placePhase_added (previous : List Item) :
    ∀ (rest : List Item) (j : Nat) (cur : List Item) {k q : Nat} {b : Item},
      (rest.map Item.key).Nodup →
      findKey rest k = some (q, b) →
      findKey previous k = none →
      recsForKey (placePhase previous rest j cur).1 k =
        [DocumentChange.mk .added b (-1) (Int.ofNat (j + q))] := by
  intro rest
  induction rest with
  | nil => intro j cur k q b _ hfr _; cases hfr
  | cons c rest ih =>
    intro j cur k q b hnd hfr hprev
    rw [List.map_cons] at hnd
    have hbk := (List.nodup_cons.mp hnd).1
    have hnd2 := (List.nodup_cons.mp hnd).2
    rw [findKey] at hfr
    by_cases hck : c.key = k
    · rw [if_pos hck] at hfr
      cases hfr
      have hfp2 : findKey previous c.key = none := by rw [hck]; exact hprev
      have habs : findKey rest k = none := by
        refine findKey_none_iff.mpr ?_
        intro c2 hc2 heq
        rw [← hck] at heq
        exact hbk (heq ▸ List.mem_map_of_mem Item.key hc2)
      rw [placePhase_cons, placeStep_added hfp2, recsForKey_append]
      rw [recsForKey_placePhase_absent previous rest (j + 1) _ habs]
      simp [recsForKey, Nat.add_zero, hck]
    · rw [if_neg hck] at hfr
      cases hinner : findKey rest k with
      | none => rw [hinner] at hfr; cases hfr
      | some q2 =>
        obtain ⟨q1, b1⟩ := q2
        rw [hinner] at hfr
        cases hfr
        rw [placePhase_cons, recsForKey_append, recsForKey_placeStep_ne previous c j cur hck]
        rw [ih (j + 1) _ hnd2 hinner hprev]
        rw [List.nil_append]
        have harith : j + 1 + q1 = j + (q1 + 1) := by omega
        rw [harith]

theorem recsForKey_placePhase_matched (previous : List Item) :
    ∀ (rest : List Item) (j : Nat) (cur : List Item) {k q p : Nat} {b a : Item},
      (rest.map Item.key).Nodup →
      (∀ c ∈ rest, hasKey previous c.key = true → hasKey cur c.key = true) →
      findKey rest k = some (q, b) →
      findKey previous k = some (p, a) →
      ((a.payload = b.payload ∧ p = j + q →
          recsForKey (placePhase previous rest j cur).1 k = []) ∧
        (¬(a.payload = b.payload ∧ p = j + q) →
          ∃ i : Nat, recsForKey (placePhase previous rest j cur).1 k =
            [DocumentChange.mk .modified b (Int.ofNat i) (Int.ofNat (j + q))])) := by
  intro rest
  induction rest with
  | nil => intro j cur k q p b a _ _ hfr _; cases hfr
  | cons c rest ih =>
    intro j cur k q p b a hnd hinv hfr hprev
    rw [List.map_cons] at hnd
    have hbk := (List.nodup_cons.mp hnd).1
    have hnd2 := (List.nodup_cons.mp hnd).2
    rw [findKey] at hfr
    by_cases hck : c.key = k
    · rw [if_pos hck] at hfr
      cases hfr
      have hfp2 : findKey previous c.key = some (p, a) := by rw [hck]; exact hprev
      have habs : findKey rest k = none := by
        refine findKey_none_iff.mpr ?_
        intro c2 hc2 heq
        rw [← hck] at heq
        exact hbk (heq ▸ List.mem_map_of_mem Item.key hc2)
      constructor
      · intro hcond
        have hc2 : a.payload = c.payload ∧ p = j := ⟨hcond.1, by omega⟩
        rw [placePhase_cons, placeStep_skip hfp2 hc2, recsForKey_append]
        rw [recsForKey_placePhase_absent previous rest (j + 1) _ habs]
        rfl
      · intro hcond
        rw [Nat.add_zero] at hcond
        have hcur : hasKey cur c.key = true :=
          hinv c (List.mem_cons_self c rest) (by rw [hasKey, hfp2]; rfl)
        rw [hasKey] at hcur
        cases hfc : findKey cur c.key with
        | none => rw [hfc] at hcur; cases hcur
        | some q2 =>
          obtain ⟨i, x⟩ := q2
          refine ⟨i, ?_⟩
          rw [placePhase_cons, placeStep_modified hfp2 hcond hfc, recsForKey_append]
          rw [recsForKey_placePhase_absent previous rest (j + 1) _ habs]
          simp [recsForKey, Nat.add_zero, hck]
    · rw [if_neg hck] at hfr
      cases hinner : findKey rest k with
      | none => rw [hinner] at hfr; cases hfr
      | some q2 =>
        obtain ⟨q1, b1⟩ := q2
        rw [hinner] at hfr
        cases hfr
        have hinv2 : ∀ c2 ∈ rest, hasKey previous c2.key = true →
            hasKey (placeStep previous c j cur).2 c2.key = true := by
          intro c2 hc2 hpv
          have hne : c2.key ≠ c.key := by
            intro heq
            exact hbk (heq ▸ List.mem_map_of_mem Item.key hc2)
          exact placeStep_preserves previous c j cur hne
            (hinv c2 (List.mem_cons_of_mem c hc2) hpv)
        have hstep := ih (j + 1) (placeStep previous c j cur).2 hnd2 hinv2 hinner hprev
        have harith : j + 1 + q1 = j + (q1 + 1) := by omega
        rw [harith] at hstep
        constructor
        · intro hcond
          rw [placePhase_cons, recsForKey_append,
            recsForKey_placeStep_ne previous c j cur hck, List.nil_append]
          exact hstep.1 hcond
        · intro hcond
          obtain ⟨i, hi⟩ := hstep.2 hcond
          refine ⟨i, ?_⟩
          rw [placePhase_cons, recsForKey_append,
            recsForKey_placeStep_ne previous c j cur hck, List.nil_append]
          exact hi

theorem recsForKey_computeChanges_matched (p n : List Item)
    (_h1 : (p.map Item.key).Nodup) (h2 : (n.map Item.key).Nodup)
    {k pa pb : Nat} {a b : Item}
    (hp : findKey p k = some (pa, a)) (hn : findKey n k = some (pb, b)) :
    (a.payload = b.payload ∧ pa = pb → recsForKey (computeChanges p n) k = []) ∧
    (¬(a.payload = b.payload ∧ pa = pb) →
      ∃ i : Nat, recsForKey (computeChanges p n) k =
        [DocumentChange.mk .modified b (Int.ofNat i) (Int.ofNat pb)]) := by
  have hkn : hasKey n k = true := by rw [hasKey, hn]; rfl
  have hrem : recsForKey (removePhase n p 0) k = [] := recsForKey_removePhase n p 0 hkn
  have hinv : ∀ c ∈ n, hasKey p c.key = true →
      hasKey (p.filter (fun a2 => hasKey n a2.key)) c.key = true := by
    intro c hc hcp
    exact hasKey_filter_matched hcp (hasKey_iff.mpr ⟨c, hc, rfl⟩)
  have hmain := recsForKey_placePhase_matched p n 0
    (p.filter (fun a2 => hasKey n a2.key)) h2 hinv hn hp
  rw [Nat.zero_add] at hmain
  constructor
  · intro hcond
    rw [computeChanges, recsForKey_append, hrem, List.nil_append]
    exact hmain.1 hcond
  · intro hcond
    obtain ⟨i, hi⟩ := hmain.2 hcond
    refine ⟨i, ?_⟩
    rw [computeChanges, recsForKey_append, hrem, List.nil_append]
    exact hi

/-- C2.  An item whose identity key is present in both sequences (item
`a` at position `pa` of `previous`, item `b` at position `pb` of
`next`) yields exactly one `modified` record when its payload or its
position differs, carrying the next-sequence item and the new position,
and yields no record at all when payload and position both agree; in
particular a matched item never yields an `added` or `removed`
record. -/
theorem matched_item_classification (p n : List Item) (recs : List DocumentChange)
    (hok : diffEngine p n = Except.ok recs) {k pa pb : Nat} {a b : Item}
    (hp : findKey p k = some (pa, a)) (hn : findKey n k = some (pb, b)) :
    (a.payload = b.payload ∧ pa = pb → recsForKey recs k = []) ∧
    (¬(a.payload = b.payload ∧ pa = pb) →
      ∃ i : Nat, recsForKey recs k =
        [DocumentChange.mk .modified b (Int.ofNat i) (Int.ofNat pb)]) := by
  obtain ⟨hnd1, hnd2, hrecs⟩ := diffEngine_ok_iff.mp hok
  subst hrecs
  exact recsForKey_computeChanges_matched p n hnd1 hnd2 hp hn

/-- Witness for C2: previous `[{key 0, payload 0}]`, next
`[{key 0, payload 1}]`; the payload changed, so there is exactly one
`modified` record for key 0. -/
theorem matched_item_classification_witness :
    ∃ i : Nat, recsForKey (computeChanges [⟨0,0⟩] [⟨0,1⟩]) 0 =
      [DocumentChange.mk .modified ⟨0,1⟩ (Int.ofNat i) (Int.ofNat 0)] :=
  (matched_item_classification [⟨0,0⟩] [⟨0,1⟩] (computeChanges [⟨0,0⟩] [⟨0,1⟩]) rfl
    (rfl : findKey [⟨0,0⟩] 0 = some (0, ⟨0,0⟩))
    (rfl : findKey [⟨0,1⟩] 0 = some (0, ⟨0,1⟩))).2 (by decide)

/-- C3, counterexample to the claim as stated: in
`previous = [A,B]`, `next = [B,A]` (payloads unchanged, positions
swapped) the item with key 0 is present in both sequences with content
unchanged at a different position, yet the engine does emit a record
for it (a `modified` record, per §4.2 "Formally" and §8 "Pure
reorder"), so the output is not free of records for that item. -/
theorem pure_shift_counterexample :
    ((([⟨0,0⟩, ⟨1,0⟩] : List Item).map Item.key).Nodup ∧
      (([⟨1,0⟩, ⟨0,0⟩] : List Item).map Item.key).Nodup) ∧
    findKey [⟨0,0⟩, ⟨1,0⟩] 0 = some (0, ⟨0,0⟩) ∧
    findKey [⟨1,0⟩, ⟨0,0⟩] 0 = some (1, ⟨0,0⟩) ∧
    recsForKey (computeChanges [⟨0,0⟩, ⟨1,0⟩] [⟨1,0⟩, ⟨0,0⟩]) 0 ≠ [] :=
  ⟨by decide, rfl, rfl, by decide⟩

/-- C3, amended.  An item present in both sequences with unchanged
content never yields an `added` or `removed` record (no spurious
remove+add pair): every record for it is `modified`; when its position
is also unchanged it yields no record at all; and when its position
differs it yields exactly one `modified` record rather than being
skipped entirely (contrary to the claim as stated). -/
theorem pure_shift_amended (p n : List Item) (recs : List DocumentChange)
    (hok : diffEngine p n = Except.ok recs) {k pa pb : Nat} {a b : Item}
    (hp : findKey p k = some (pa, a)) (hn : findKey n k = some (pb, b))
    (hpl : a.payload = b.payload) :
    (∀ r ∈ recsForKey recs k, r._type = .modified) ∧
    (pa = pb → recsForKey recs k = []) ∧
    (pa ≠ pb → ∃ i : Nat, recsForKey recs k =
      [DocumentChange.mk .modified b (Int.ofNat i) (Int.ofNat pb)]) := by
  obtain ⟨h1, h2, hrecs⟩ := diffEngine_ok_iff.mp hok
  subst hrecs
  have hmain := recsForKey_computeChanges_matched p n h1 h2 hp hn
  refine ⟨?_, ?_, ?_⟩
  · intro r hr
    by_cases hcond : a.payload = b.payload ∧ pa = pb
    · rw [hmain.1 hcond] at hr
      cases hr
    · obtain ⟨i, hi⟩ := hmain.2 hcond
      rw [hi] at hr
      have : r = DocumentChange.mk .modified b (Int.ofNat i) (Int.ofNat pb) := by
        simpa using hr
      rw [this]
  · intro hpos
    exact hmain.1 ⟨hpl, hpos⟩
  · intro hne
    exact hmain.2 (fun hcond => hne hcond.2)

/-- Witness for C3 (amended) at previous `[A,B]`, next `[B,A]` with
key 0 unchanged in content but moved from position 0 to position 1:
the different-position clause yields exactly one `modified` record for
key 0, carrying the next-sequence item and the new position. -/
theorem pure_shift_amended_witness :
    ∃ i : Nat, recsForKey (computeChanges [⟨0,0⟩, ⟨1,0⟩] [⟨1,0⟩, ⟨0,0⟩]) 0 =
      [DocumentChange.mk .modified ⟨0,0⟩ (Int.ofNat i) (Int.ofNat 1)] :=
  (pure_shift_amended [⟨0,0⟩, ⟨1,0⟩] [⟨1,0⟩, ⟨0,0⟩]
    (computeChanges [⟨0,0⟩, ⟨1,0⟩] [⟨1,0⟩, ⟨0,0⟩]) rfl
    (rfl : findKey [⟨0,0⟩, ⟨1,0⟩] 0 = some (0, ⟨0,0⟩))
    (rfl : findKey [⟨1,0⟩, ⟨0,0⟩] 0 = some (1, ⟨0,0⟩)) rfl).2.2 (by decide)

/-- C4.  The engine's output is the list of all `removed` records
first — their documents being exactly the removed-only items in
previous-sequence order, i.e. ascending old position — followed by the
`modified` and `added` records in strictly ascending order of their new
position. -/
theorem emission_order (p n : List Item) (recs : List DocumentChange)
    (hok : diffEngine p n = Except.ok recs) :
    ∃ r1 r2, recs = r1 ++ r2 ∧
      (∀ r ∈ r1, r._type = .removed) ∧
      r1.map DocumentChange._document = p.filter (fun a => !(hasKey n a.key)) ∧
      (∀ r ∈ r2, r._type = .modified ∨ r._type = .added) ∧
      r2.Pairwise (fun x y => x._newIndex < y._newIndex) := by
  obtain ⟨h1, h2, hrecs⟩ := diffEngine_ok_iff.mp hok
  subst hrecs
  refine ⟨removePhase n p 0, (placePhase p n 0 (p.filter (fun a => hasKey n a.key))).1,
    rfl, ?_, ?_, ?_, ?_⟩
  · intro r hr
    exact (removePhase_records n p 0 r hr).1
  · exact removePhase_docs n p 0
  · intro r hr
    obtain ⟨q, -, -, -, hshape⟩ := placePhase_records p n 0 _ r hr
    rcases hshape with ⟨ht, -, -⟩ | ⟨ht, -, -⟩
    · exact Or.inl ht
    · exact Or.inr ht
  · exact placePhase_pairwise p n 0 _

/-- Witness for C4 at the §8 example `[A,B,C]` to `[A,C,D]`. -/
theorem emission_order_witness :
    ∃ r1 r2, computeChanges [⟨0,0⟩, ⟨1,0⟩, ⟨2,0⟩] [⟨0,0⟩, ⟨2,0⟩, ⟨3,0⟩] = r1 ++ r2 ∧
      (∀ r ∈ r1, r._type = DocumentChangeType.removed) ∧
      r1.map DocumentChange._document =
        ([⟨0,0⟩, ⟨1,0⟩, ⟨2,0⟩] : List Item).filter
          (fun a => !(hasKey [⟨0,0⟩, ⟨2,0⟩, ⟨3,0⟩] a.key)) ∧
      (∀ r ∈ r2, r._type = DocumentChangeType.modified ∨
        r._type = DocumentChangeType.added) ∧
      r2.Pairwise (fun x y => x._newIndex < y._newIndex) :=
  emission_order [⟨0,0⟩, ⟨1,0⟩, ⟨2,0⟩] [⟨0,0⟩, ⟨2,0⟩, ⟨3,0⟩]
    (computeChanges [⟨0,0⟩, ⟨1,0⟩, ⟨2,0⟩] [⟨0,0⟩, ⟨2,0⟩, ⟨3,0⟩]) rfl

/-- C5.  When `previous` and `next` share no identity keys, the output
is exactly `previous.length` `removed` records (each with
`newIndex = -1`) followed by `next.length` `added` records (each with
`oldIndex = -1`). -/
theorem disjoint_sequences (p n : List Item) (recs : List DocumentChange)
    (hok : diffEngine p n = Except.ok recs)
    (hdisj : ∀ a ∈ p, ∀ b ∈ n, a.key ≠ b.key) :
    ∃ r1 r2, recs = r1 ++ r2 ∧ r1.length = p.length ∧ r2.length = n.length ∧
      (∀ r ∈ r1, r._type = .removed ∧ r._newIndex = -1) ∧
      (∀ r ∈ r2, r._type = .added ∧ r._oldIndex = -1) := by
  obtain ⟨-, -, hrecs⟩ := diffEngine_ok_iff.mp hok
  subst hrecs
  have hpn : ∀ a ∈ p, hasKey n a.key = false := by
    intro a ha
    cases hh : hasKey n a.key with
    | false => rfl
    | true =>
      obtain ⟨c, hc, hck⟩ := hasKey_iff.mp hh
      exact absurd hck.symm (hdisj a ha c hc)
  have hnp : ∀ b ∈ n, hasKey p b.key = false := by
    intro b hb
    cases hh : hasKey p b.key with
    | false => rfl
    | true =>
      obtain ⟨c, hc, hck⟩ := hasKey_iff.mp hh
      exact absurd hck (hdisj c hc b hb)
  refine ⟨removePhase n p 0, _, rfl, ?_, ?_, ?_, ?_⟩
  · rw [removePhase_all n p 0 hpn, List.length_map]
  · exact placePhase_all_added p n 0 _ hnp
  · intro r hr
    exact ⟨(removePhase_records n p 0 r hr).1, (removePhase_records n p 0 r hr).2.1⟩
  · intro r hr
    obtain ⟨q, -, -, hdoc, hshape⟩ := placePhase_records p n 0 _ r hr
    rcases hshape with ⟨-, -, hk⟩ | ⟨ht, ho, -⟩
    · rw [hnp r._document hdoc] at hk
      cases hk
    · exact ⟨ht, ho⟩

/-- Witness for C5 at previous `[{key 0}]`, next `[{key 1}]`. -/
theorem disjoint_sequences_witness :
    ∃ r1 r2, computeChanges [⟨0,0⟩] [⟨1,0⟩] = r1 ++ r2 ∧
      r1.length = ([⟨0,0⟩] : List Item).length ∧
      r2.length = ([⟨1,0⟩] : List Item).length ∧
      (∀ r ∈ r1, r._type = DocumentChangeType.removed ∧ r._newIndex = -1) ∧
      (∀ r ∈ r2, r._type = DocumentChangeType.added ∧ r._oldIndex = -1) :=
  disjoint_sequences [⟨0,0⟩] [⟨1,0⟩] (computeChanges [⟨0,0⟩] [⟨1,0⟩]) rfl (by decide)

/-- C6.  Every record emitted by the diff engine has `oldIndex = -1`
exactly when its kind is `added` (otherwise `oldIndex ≥ 0`), and
`newIndex = -1` exactly when its kind is `removed` (otherwise
`newIndex ≥ 0`). -/
theorem index_kind_invariant (p n : List Item) (recs : List DocumentChange)
    (hok : diffEngine p n = Except.ok recs) :
    ∀ r ∈ recs,
      ((r._oldIndex = -1 ↔ r._type = .added) ∧ (r._type ≠ .added → 0 ≤ r._oldIndex)) ∧
      ((r._newIndex = -1 ↔ r._type = .removed) ∧ (r._type ≠ .removed → 0 ≤ r._newIndex)) := by
  obtain ⟨-, -, hrecs⟩ := diffEngine_ok_iff.mp hok
  subst hrecs
  intro r hr
  rw [computeChanges] at hr
  rcases List.mem_append.mp hr with hr1 | hr2
  · obtain ⟨ht, hni, ⟨m, hoi⟩, -, -⟩ := removePhase_records n p 0 r hr1
    have h0 : (0 : Int) ≤ Int.ofNat m := by
      rw [Int.ofNat_eq_natCast]
      exact Int.natCast_nonneg m
    refine ⟨⟨?_, ?_⟩, ⟨?_, ?_⟩⟩ <;> simp [ht, hni, hoi, ofNat_ne_negOne m, h0]
  · obtain ⟨q, -, hni, -, hshape⟩ := placePhase_records p n 0 _ r hr2
    have h0q : (0 : Int) ≤ Int.ofNat q := by
      rw [Int.ofNat_eq_natCast]
      exact Int.natCast_nonneg q
    rcases hshape with ⟨ht, ⟨m, hoi⟩, -⟩ | ⟨ht, hoi, -⟩
    · have h0 : (0 : Int) ≤ Int.ofNat m := by
        rw [Int.ofNat_eq_natCast]
        exact Int.natCast_nonneg m
      refine ⟨⟨?_, ?_⟩, ⟨?_, ?_⟩⟩ <;>
        simp [ht, hni, hoi, ofNat_ne_negOne m, ofNat_ne_negOne q, h0, h0q]
    · refine ⟨⟨?_, ?_⟩, ⟨?_, ?_⟩⟩ <;> simp [ht, hni, hoi, ofNat_ne_negOne q, h0q]

/-- Witness for C6 at the single removed record of
`computeChanges [{key 0}] []`. -/
theorem index_kind_invariant_witness :
    (((DocumentChange.mk .removed ⟨0,0⟩ (Int.ofNat 0) (-1))._oldIndex = -1 ↔
        (DocumentChange.mk .removed ⟨0,0⟩ (Int.ofNat 0) (-1))._type =
          DocumentChangeType.added) ∧
      ((DocumentChange.mk .removed ⟨0,0⟩ (Int.ofNat 0) (-1))._type ≠
          DocumentChangeType.added →
        0 ≤ (DocumentChange.mk .removed ⟨0,0⟩ (Int.ofNat 0) (-1))._oldIndex)) ∧
    (((DocumentChange.mk .removed ⟨0,0⟩ (Int.ofNat 0) (-1))._newIndex = -1 ↔
        (DocumentChange.mk .removed ⟨0,0⟩ (Int.ofNat 0) (-1))._type =
          DocumentChangeType.removed) ∧
      ((DocumentChange.mk .removed ⟨0,0⟩ (Int.ofNat 0) (-1))._type ≠
          DocumentChangeType.removed →
        0 ≤ (DocumentChange.mk .removed ⟨0,0⟩ (Int.ofNat 0) (-1))._newIndex)) :=
  index_kind_invariant [⟨0,0⟩] [] (computeChanges [⟨0,0⟩] []) rfl
    (DocumentChange.mk .removed ⟨0,0⟩ (Int.ofNat 0) (-1)) (by decide)

/-- C7.  Two change records are `isEqual` exactly when they have the
same kind, the same `oldIndex`, the same `newIndex`, and documents
equal under the document type's own (delegated) equality; a difference
in any one field breaks equality, and reference identity (the
`this === other` short-circuit of the source) is subsumed because a
record always satisfies the four field checks against itself. -/
theorem isEqual_iff (a b : DocumentChange) :
    a.isEqual (FsDocumentChange.inst b) = true ↔
      (a._type = b._type ∧ a._oldIndex = b._oldIndex ∧ a._newIndex = b._newIndex ∧
        a._document.isEqual b._document = true) := by
  rw [DocumentChange.isEqual]
  by_cases hab : a = b
  · rw [if_pos hab]
    subst hab
    simp [Item.isEqual]
  · rw [if_neg hab]
    simp [Item.isEqual, and_assoc]

/-- C8.  The engine fails exactly on inputs with a duplicated identity
key: on identity-unique inputs it returns the change records, and
otherwise it raises an `InvariantViolation` whose key occurs at least
twice in one of the input sequences. -/
theorem error_semantics (p n : List Item) :
    ((p.map Item.key).Nodup ∧ (n.map Item.key).Nodup →
      diffEngine p n = Except.ok (computeChanges p n)) ∧
    (¬((p.map Item.key).Nodup ∧ (n.map Item.key).Nodup) →
      ∃ e : InvariantViolation, diffEngine p n = Except.error e ∧
        (2 ≤ (p.map Item.key).count e.key ∨ 2 ≤ (n.map Item.key).count e.key)) := by
  constructor
  · intro h
    exact diffEngine_ok_iff.mpr ⟨h.1, h.2, rfl⟩
  · intro h
    rw [diffEngine]
    cases h1 : firstDup (p.map Item.key) with
    | some k => exact ⟨⟨k⟩, rfl, Or.inl (firstDup_some_count h1)⟩
    | none =>
      cases h2 : firstDup (n.map Item.key) with
      | some k => exact ⟨⟨k⟩, rfl, Or.inr (firstDup_some_count h2)⟩
      | none =>
        exact absurd ⟨firstDup_eq_none_iff.mp h1, firstDup_eq_none_iff.mp h2⟩ h

/-- Witness for C8: an identity-unique input succeeds, and an input
with key 0 duplicated in `previous` fails naming a key that occurs
twice there. -/
theorem error_semantics_witness :
    diffEngine [⟨0,0⟩] [] = Except.ok (computeChanges [⟨0,0⟩] []) ∧
    (∃ e : InvariantViolation, diffEngine [⟨0,1⟩, ⟨0,2⟩] [] = Except.error e ∧
      (2 ≤ (([⟨0,1⟩, ⟨0,2⟩] : List Item).map Item.key).count e.key ∨
        2 ≤ (([] : List Item).map Item.key).count e.key)) :=
  ⟨(error_semantics [⟨0,0⟩] []).1 (by decide),
    (error_semantics [⟨0,1⟩, ⟨0,2⟩] []).2 (by decide)⟩

/-- C9.  Construction is unchecked and total: for every kind, document
and index pair — including combinations inconsistent with the §3 data
model — the constructor succeeds and the accessors `type`, `doc`,
`oldIndex` and `newIndex` return exactly the constructor arguments;
records are immutable values, so no operation can change them after
construction. -/
theorem constructor_accessor_roundtrip (t : DocumentChangeType) (d : Item) (oi ni : Int) :
    (DocumentChange.mk t d oi ni).type = t ∧ (DocumentChange.mk t d oi ni).doc = d ∧
      (DocumentChange.mk t d oi ni).oldIndex = oi ∧
      (DocumentChange.mk t d oi ni).newIndex = ni :=
  ⟨rfl, rfl, rfl, rfl⟩

/-- C10.  Comparing a record against any value that is not an instance
of the `DocumentChange` class returns false, even if that value exposes
identical kind, indices and an equal document, because `isEqual`
requires the `instanceof DocumentChange` test to pass. -/
theorem isEqual_foreign_false (c : DocumentChange) (t : DocumentChangeType) (d : Item)
    (oi ni : Int) :
    c.isEqual (FsDocumentChange.foreign t d oi ni) = false :=
  rfl
